import Mathlib

/-!
# Verification of the libOpenCM3 builder script (`libopencm3.py`)

This development gives a shallow embedding of the source-set resolution and
board-to-source-tree mapping logic of the PlatformIO libOpenCM3 builder
script, and proves properties of it.

Modelling conventions:

* Python strings are modelled as `List Char` (abbreviated `Str`); string
  literals in the embedding are written as Lean string literals converted
  with `.data`.
* The filesystem is modelled as a record holding the regular files (path
  together with textual content) and the `os.listdir` results for
  directories.  `os.path.isfile` holds exactly of the paths in `files`.
* The three regular expressions of `parse_makefile_data`
  (`^include\s+([^\r\n]+)`, `^VPATH\s+\+?=\s+([^\r\n]+)`, and
  `^OBJS\s+\+?=\s+([^\.]+\.o\s*(?:\s+\\s+)?)+`, all with `re.M`) are modelled
  by executable matchers.  The two line-oriented patterns are applied to each
  line of the content (the multiline anchor `^` matches at the start and
  after each newline).  A `\s+` run folding across a line boundary (possible
  in principle for the multiline regexes, e.g. an `include` keyword followed
  only by blanks up to the end of its line) is not folded across lines in the
  model; no rule file of the dialect exercises this.  The greedy matching and
  the backtracking behaviour of the Python `re` engine inside one line are
  reproduced exactly (see the comments on the individual matchers).
* Python's `for include in mkdata['includes']` iterates the list by index
  and picks up elements appended during iteration; the loop is modelled by
  `resolveLoop` with an explicit index, using fuel that is proved sufficient
  (`fuelFor`), so the fuel-based definition computes the Python loop's
  result.
* `assert` failures (`AssertionError`), missing files (`IOError`) abort the
  script; fallible operations return `Option` and `none` models the abort.
-/

namespace LibOpenCM3

/-- Python strings are modelled as lists of characters. -/
abbrev Str := List Char

/-- The separator `os.sep` on the modelled POSIX host. -/
def sepC : Char := '/'

/-- Python `os.path.join(a, b)` (POSIX): an absolute `b` replaces `a`; otherwise the
parts are glued with a single separator (note `join("a", "") = "a/"`). -/
def pjoin (a b : Str) : Str :=
  if b.head? = some sepC then b
  else if a = [] then b
  else if a.getLast? = some sepC then a ++ b
  else a ++ sepC :: b

/-- Split a list on every occurrence of the character `c`, keeping empty
pieces, as Python's `str.split(c)` does (`"a::b" ↦ ["a", "", "b"]`). -/
def splitOnChar (c : Char) : Str → List Str
  | [] => [[]]
  | d :: rest =>
    let r := splitOnChar c rest
    if d = c then [] :: r
    else
      match r with
      | h :: t => (d :: h) :: t
      | [] => [[d]]

/-- Python `os.path.normpath` (POSIX): splits on `/`, drops empty and `.` components,
resolves `..` against preceding components, and reassembles.  (The special
case of exactly two leading slashes being preserved is not modelled; no path
in this development starts with `//`.) -/
def normpath (p : Str) : Str :=
  if p = [] then ['.']
  else
    let isAbs : Bool := p.head? = some sepC
    let comps := splitOnChar sepC p
    let comps2 := comps.foldl
      (fun acc c =>
        if c = [] ∨ c = ['.'] then acc
        else if c ≠ ['.', '.'] then acc ++ [c]
        else if isAbs ∧ acc = [] then acc
        else if acc ≠ [] ∧ acc.getLast? ≠ some ['.', '.'] then acc.dropLast
        else acc ++ [c])
      []
    let body := List.intercalate [sepC] comps2
    let r := (if isAbs then [sepC] else []) ++ body
    if r = [] then ['.'] else r

/-- Python `str.replace(pat, "")` for a nonempty pattern `p :: ps`: every
occurrence is removed, scanning left to right.  Each step consumes at least
one character, so fuel `l.length + 1` always suffices and the `fuel = 0`
branch is never taken. -/
def replaceAllAux (p : Char) (ps : Str) : Nat → Str → Str
  | 0, l => l
  | _ + 1, [] => []
  | fuel + 1, c :: rest =>
    if (p :: ps).isPrefixOf (c :: rest) then replaceAllAux p ps fuel (rest.drop ps.length)
    else c :: replaceAllAux p ps fuel rest

/-- Python `str.replace(pat, "")`: every occurrence of `pat` is removed,
scanning left to right (the empty pattern leaves the string unchanged). -/
def replaceAll (pat : Str) (l : Str) : Str :=
  match pat with
  | [] => l
  | p :: ps => replaceAllAux p ps (l.length + 1) l

/-- The filesystem: the regular files (with their textual contents) and the
`os.listdir` listings.  `isfile` holds exactly of the paths in `files`. -/
structure FS where
  files : List (Str × Str)
  dirlist : List (Str × List Str)

/-- Reading a file: `some` content when `p` is a regular file. -/
def readFile (fs : FS) (p : Str) : Option Str :=
  (fs.files.find? (fun e => e.1 = p)).map (·.2)

/-- Python `os.path.isfile`. -/
def isfile (fs : FS) (p : Str) : Bool :=
  (readFile fs p).isSome

/-- Python `os.listdir` (unsorted, as returned by the OS). -/
def listdir (fs : FS) (d : Str) : List Str :=
  ((fs.dirlist.find? (fun e => e.1 = d)).map (·.2)).getD []

/-- Lexicographic comparison of strings by character code, as Python's
string `<=` orders them. -/
def strLe : Str → Str → Bool
  | [], _ => true
  | _ :: _, [] => false
  | a :: as, b :: bs => if a < b then true else if a = b then strLe as bs else false

/-- Python's `sorted` on strings: the sorted permutation of the input w.r.t.
the lexicographic order. -/
def sortStr (l : List Str) : List Str :=
  List.insertionSort (fun a b => strLe a b = true) l

/-! ## The rule-file parser (`parse_makefile_data`) -/

/-- A character matched by `\s` (inside one line, so `\n` excluded). -/
def isSpaceChar (c : Char) : Bool :=
  c = ' ' ∨ c = '\t' ∨ c = '\r' ∨ c = '\x0b' ∨ c = '\x0c'

/-- A character matched by `\s` in the whole-content (multiline) patterns. -/
def isSpaceNL (c : Char) : Bool :=
  isSpaceChar c ∨ c = '\n'

/-- Strip an expected literal from the front, or fail. -/
def dropLit : Str → Str → Option Str
  | [], l => some l
  | _ :: _, [] => none
  | p :: ps, c :: cs => if c = p then dropLit ps cs else none

/-- The tail `\s+([^\r\n]+)` of the `include` and `VPATH` patterns, applied
within one line.  Greedily, `\s+` takes the maximal whitespace run and the
capture is the maximal CR-free run after it; when the whole rest of the line
is whitespace the engine backtracks `\s+` so that the capture becomes the
last non-CR (whitespace) character, provided at least one whitespace
character remains for `\s+`. -/
def matchWsCapture (l : Str) : Option Str :=
  let m := (l.takeWhile isSpaceChar).length
  if m < l.length then
    if 1 ≤ m then some ((l.drop m).takeWhile (fun c => c ≠ '\r')) else none
  else
    let k := (l.reverse.takeWhile (fun c => c = '\r')).length
    if 2 ≤ l.length - k then some [l.getD (l.length - k - 1) ' '] else none

/-- One line matched against `^include\s+([^\r\n]+)`; returns the capture. -/
def matchInclude (line : Str) : Option Str :=
  match dropLit "include".data line with
  | some rest => matchWsCapture rest
  | none => none

/-- One line matched against `^VPATH\s+\+?=\s+([^\r\n]+)`; returns the
capture.  `+` and `=` are not whitespace, so the first `\s+` deterministically
takes the maximal whitespace run and must be nonempty. -/
def matchVpath (line : Str) : Option Str :=
  match dropLit "VPATH".data line with
  | none => none
  | some r1 =>
    let w := r1.takeWhile isSpaceChar
    if w = [] then none
    else
      let r2 := r1.drop w.length
      let r3? : Option Str :=
        match r2 with
        | '+' :: '=' :: r => some r
        | '=' :: r => some r
        | _ => none
      match r3? with
      | none => none
      | some r3 => matchWsCapture r3

/-- One repetition `[^\.]+\.o\s*` of the object-list pattern: the greedy
`[^\.]+` runs exactly up to the first `.` (it can never contain one), which
must be followed by `o`; the trailing `\s*` takes the maximal whitespace run.
The `(?:\s+\\s+)?` group of the source pattern (whitespace, a literal
backslash, then literal `s` characters — a typo for a line-continuation
matcher) can only match by backtracking that the engine never performs here,
because the surrounding pattern always succeeds without it once one
repetition has matched; it therefore contributes nothing.  Returns the
consumed prefix and the rest. -/
def objsRep (l : Str) : Option (Str × Str) :=
  let d := l.takeWhile (fun c => c ≠ '.')
  if d = [] then none
  else
    match l.drop d.length with
    | '.' :: 'o' :: rest =>
      let w := rest.takeWhile isSpaceNL
      some (d ++ '.' :: 'o' :: w, rest.drop w.length)
    | _ => none

/-- The quantifier `(...)+`: as many repetitions as possible, at least one. -/
def objsReps : Nat → Str → Option (Str × Str)
  | 0, _ => none
  | fuel + 1, l =>
    match objsRep l with
    | none => none
    | some (c, rest) =>
      match objsReps fuel rest with
      | some (c2, rest2) => some (c ++ c2, rest2)
      | none => some (c, rest)

/-- The whole pattern `OBJS\s+\+?=\s+([^\.]+\.o\s*(?:\s+\\s+)?)+` matched at
one `^` position; returns the matched text (`group(0)`).  After `=`, the
greedy `\s+` takes the maximal whitespace run unless the character right
after it is a `.`, in which case the engine backtracks one whitespace
character so that the first `[^\.]+` has something to match (requiring the
run to have length at least 2). -/
def matchObjsAt (l : Str) : Option Str :=
  match dropLit "OBJS".data l with
  | none => none
  | some r1 =>
    let w1 := r1.takeWhile isSpaceNL
    if w1 = [] then none
    else
      let r2 := r1.drop w1.length
      let opr? : Option (Str × Str) :=
        match r2 with
        | '+' :: '=' :: r => some (['+', '='], r)
        | '=' :: r => some (['='], r)
        | _ => none
      match opr? with
      | none => none
      | some (op, r3) =>
        let w2 := r3.takeWhile isSpaceNL
        if w2 = [] then none
        else
          let r4 := r3.drop w2.length
          if r4.head? = some '.' then
            if 2 ≤ w2.length then
              match objsReps (r4.length + 2) (w2.getLastD ' ' :: r4) with
              | some (c, _) => some ("OBJS".data ++ w1 ++ op ++ w2.dropLast ++ c)
              | none => none
            else none
          else
            match objsReps (r4.length + 1) r4 with
            | some (c, _) => some ("OBJS".data ++ w1 ++ op ++ w2 ++ c)
            | none => none

/-- Scan the content for the leftmost `^`-anchored match of the object-list
pattern (`re.search` with `re.M`): try the start of each line in turn. -/
def findObjsAux : Nat → Str → Option Str
  | 0, _ => none
  | fuel + 1, l =>
    match matchObjsAt l with
    | some g => some g
    | none =>
      match l.dropWhile (fun c => c ≠ '\n') with
      | [] => none
      | _ :: tail => findObjsAux fuel tail

/-- The search `re.search(r"^OBJS...", content, re.M)`, returning `group(0)`. -/
def findObjs (content : Str) : Option Str :=
  findObjsAux (content.length + 1) content

/-- The suffixes of the content that start at a line start (the positions at
which the multiline `^` anchors). -/
def lineSuffixesAux : Nat → Str → List Str
  | 0, _ => []
  | fuel + 1, l =>
    l :: (match l.dropWhile (fun c => c ≠ '\n') with
          | [] => []
          | _ :: tail => lineSuffixesAux fuel tail)

/-- All `^`-anchor positions of the content, as suffixes. -/
def lineSuffixes (content : Str) : List Str :=
  lineSuffixesAux (content.length + 1) content

/-- A character replaced by the cleanup substitution
`re.sub(r"(OBJS|[\+=\\\s]+)", "\n", ...)` followed by `.split()`. -/
def objsSepChar (c : Char) : Bool :=
  c = '+' ∨ c = '=' ∨ c = '\\' ∨ isSpaceNL c

/-- The cleanup of the matched object-list text: occurrences of `OBJS` and
runs of `[\+=\\\s]` separate the remaining tokens (`re.sub` to `"\n"`, then
`str.split()`, which drops empty pieces).  `cur` holds the current token
reversed. -/
def objsSplitAux : Nat → Str → Str → List Str → List Str
  | 0, _, cur, acc => if cur = [] then acc else acc ++ [cur.reverse]
  | fuel + 1, l, cur, acc =>
    match l with
    | [] => if cur = [] then acc else acc ++ [cur.reverse]
    | c :: rest =>
      if ("OBJS".data).isPrefixOf l then
        objsSplitAux fuel (l.drop 4) [] (if cur = [] then acc else acc ++ [cur.reverse])
      else if objsSepChar c then
        objsSplitAux fuel rest [] (if cur = [] then acc else acc ++ [cur.reverse])
      else objsSplitAux fuel rest (c :: cur) acc

/-- Token extraction from `group(0)` of the object-list match. -/
def objsSplit (g : Str) : List Str :=
  objsSplitAux (g.length + 1) g [] []

/-- The record built by `parse_makefile_data`. -/
structure MkData where
  includes : List Str
  vpath : List Str
  objs : List Str
deriving DecidableEq, Repr

/-- The parser `parse_makefile_data`, acting on the file contents: collect the `include`
captures in line order, seed `vpath` with `"./"` and append the `:`-split of
every `VPATH` capture in line order, and extract the object tokens from the
object-list match — whose absence (`assert objs_match`) aborts with `none`. -/
def parse_makefile_data (content : Str) : Option MkData :=
  let ls := splitOnChar '\n' content
  let includes := ls.filterMap matchInclude
  let vpath := "./".data :: []
  match findObjs content with
  | none => none
  | some g =>
    some ⟨includes,
          vpath ++ (ls.filterMap matchVpath).foldl (fun acc cap => acc ++ splitOnChar ':' cap) [],
          objsSplit g⟩

/-- The parser applied to a file on disk: a missing file is an
`IOError`, which also aborts (`none`). -/
def parseFile (fs : FS) (p : Str) : Option MkData :=
  (readFile fs p).bind parse_makefile_data

/-! ## The include-merging loop of `get_source_files` -/

/-- One guarded append of the merge: `if v not in mkdata[key]:
mkdata[key].append(v)`. -/
def mergeList (xs ys : List Str) : List Str :=
  ys.foldl (fun acc v => if v ∈ acc then acc else acc ++ [v]) xs

/-- Merge a parsed included file into the accumulated data, field by field. -/
def mergeData (m m2 : MkData) : MkData :=
  ⟨mergeList m.includes m2.includes, mergeList m.vpath m2.vpath, mergeList m.objs m2.objs⟩

/-- The loop `for include in mkdata['includes']`.  Python's list iterator
advances an index and sees elements appended during iteration, so the loop is
a worklist: at index `i`, parse the `i`-th include (path joined to `src_dir`
and normalized; a missing or malformed file aborts), merge its data — which
may append fresh includes — and continue with `i + 1`. -/
def resolveLoop (fs : FS) (src_dir : Str) : Nat → MkData → Nat → Option MkData
  | 0, _, _ => none
  | fuel + 1, m, i =>
    if i < m.includes.length then
      match parseFile fs (normpath (pjoin src_dir (m.includes.getD i []))) with
      | none => none
      | some m2 => resolveLoop fs src_dir fuel (mergeData m m2) (i + 1)
    else some m

/-- All include strings any file of the filesystem can contribute. -/
def includesUniverse (fs : FS) : List Str :=
  (fs.files.map (fun e =>
    match parse_makefile_data e.2 with
    | some m => m.includes
    | none => [])).flatten

/-- Fuel that provably exceeds the number of iterations of the Python loop:
the loop index grows by one per iteration and the include list, which starts
as the root's and only ever gains elements not already present, is bounded by
the root's list plus the distinct include strings available in the
filesystem. -/
def fuelFor (fs : FS) (root : MkData) : Nat :=
  root.includes.length + (includesUniverse fs).length + 1

/-- The merged rule set: parse `join(src_dir, "Makefile")` and run the
include-merging loop. -/
def merged_rule_set (fs : FS) (src_dir : Str) : Option MkData :=
  match parseFile fs (pjoin src_dir "Makefile".data) with
  | none => none
  | some root => resolveLoop fs src_dir (fuelFor fs root) root 0

/-! ## Source-file resolution -/

/-- The substitution `obj_file[:-1] + "c"`: derive the source-file name from an object name. -/
def srcFileName (obj : Str) : Str :=
  obj.dropLast ++ ['c']

/-- The resolved build path for a located source file:
`join("$BUILD_DIR", "FrameworkLibOpenCM3", src_path.replace(FRAMEWORK_DIR + sep, ""))`. -/
def buildPath (framework_dir src_path : Str) : Str :=
  pjoin (pjoin "$BUILD_DIR".data "FrameworkLibOpenCM3".data)
    (replaceAll (framework_dir ++ [sepC]) src_path)

/-- The inner loop over the merged search paths with `break`: the first
search path under which the candidate file exists wins, and its re-rooted
build path is produced. -/
def resolveObj (fs : FS) (framework_dir src_dir : Str) (vpath : List Str) (src_file : Str) :
    Option Str :=
  vpath.findSome? (fun sp =>
    let src_path := normpath (pjoin (pjoin src_dir sp) src_file)
    if isfile fs src_path then some (buildPath framework_dir src_path) else none)

/-- The resolver `get_source_files`: resolve the merged rule set, then map every object
name to its first located source file, silently skipping objects with no
match on any search path. -/
def get_source_files (fs : FS) (framework_dir src_dir : Str) : Option (List Str) :=
  match merged_rule_set fs src_dir with
  | none => none
  | some m => some (m.objs.filterMap (fun obj => resolveObj fs framework_dir src_dir m.vpath (srcFileName obj)))

/-! ## Linker-script selection (`find_ldscript`) -/

/-- The linker-script suffix test `item.endswith(".ld")`. -/
def endsWithLd (item : Str) : Bool :=
  (".ld".data).isSuffixOf item

/-- The selector `find_ldscript`: collect, in sorted directory order, the regular files in
`src_dir` ending in `.ld`; then, in strict priority order, a project-side
override named by the board, a sole auto-detected candidate, or the
board-named script inside `src_dir`; otherwise `none`. -/
def find_ldscript (fs : FS) (project_dir board_ldscript src_dir : Str) : Option Str :=
  -- `ldMatches` is the script's local `matches` (a Lean keyword).
  let ldMatches := (sortStr (listdir fs src_dir)).foldl
    (fun acc item =>
      let p := pjoin src_dir item
      if ¬ isfile fs p ∨ ¬ endsWithLd item then acc else acc ++ [p])
    []
  if isfile fs (pjoin project_dir board_ldscript) then some (pjoin project_dir board_ldscript)
  else if ldMatches.length = 1 then some (ldMatches.getD 0 [])
  else if isfile fs (pjoin src_dir board_ldscript) then some (pjoin src_dir board_ldscript)
  else none

/-! ## Board-to-source-tree dispatch -/

/-- The `root_dir` computation: `join(FRAMEWORK_DIR, "lib")`, then `lm4f` for
the `tivac` core, or `<core>/<mcu[5:7]>` for the `stm32` core. -/
def root_dir (framework_dir core mcu : Str) : Str :=
  let rd := pjoin framework_dir "lib".data
  if core = "tivac".data then pjoin rd "lm4f".data
  else if core = "stm32".data then pjoin (pjoin rd core) ((mcu.drop 5).take 2)
  else rd

/-! ## The include relation and its transitive closure -/

/-- The include strings transitively reachable from the root rule set: the
root's own include strings, plus everything listed by a file reached through
an already-reachable include string. -/
inductive ReachableInclude (fs : FS) (sd : Str) (root : MkData) : Str → Prop
  | base {s : Str} : s ∈ root.includes → ReachableInclude fs sd root s
  | step {s t : Str} {m2 : MkData} : ReachableInclude fs sd root s →
      parseFile fs (normpath (pjoin sd s)) = some m2 → t ∈ m2.includes →
      ReachableInclude fs sd root t

/-! ## Concrete rule-file trees used as witnesses and counterexamples -/

/-- A tree with a second-level include and an include cycle: the root
includes `a.mk`, `a.mk` includes `b.mk`, and `b.mk` includes `a.mk` again. -/
def fsC1 : FS :=
  ⟨[("/r/Makefile".data, "include a.mk\nOBJS = root.o\n".data),
    ("/r/a.mk".data, "include b.mk\nOBJS = a.o\n".data),
    ("/r/b.mk".data, "include a.mk\nOBJS = b.o\n".data),
    ("/r/root.c".data, "x".data)], []⟩

/-- The parse of `fsC1`'s root Makefile. -/
def rootC1 : MkData :=
  ⟨["a.mk".data], ["./".data], ["root.o".data]⟩

/-- The concrete first-match scenario: `OBJS = foo.o bar.o`,
`VPATH += src:extra`, with `src/foo.c` and `extra/bar.c` present and
`src/bar.c` absent. -/
def fsC4 : FS :=
  ⟨[("/fw/lib/Makefile".data, "VPATH += src:extra\nOBJS = foo.o bar.o\n".data),
    ("/fw/lib/src/foo.c".data, "x".data),
    ("/fw/lib/extra/bar.c".data, "x".data)], []⟩

/-- A root rule file with duplicated VPATH paths and object names, plus an
included file repeating an already-present search path. -/
def fsC5 : FS :=
  ⟨[("/r/Makefile".data, "include i.mk\nVPATH += a:a\nOBJS = foo.o foo.o\n".data),
    ("/r/i.mk".data, "VPATH += a\nOBJS = bar.o\n".data)], []⟩

/-- A duplicate-free rule-file tree, for the amended-invariant witness. -/
def fsC5w : FS :=
  ⟨[("/r/Makefile".data, "include i.mk\nVPATH += a\nOBJS = foo.o\n".data),
    ("/r/i.mk".data, "VPATH += b\nOBJS = bar.o\n".data),
    ("/r/a/foo.c".data, "x".data)], []⟩

/-- A tree where `foo.o` has no source file under any search path while
`bar.o` resolves. -/
def fsC6 : FS :=
  ⟨[("/r/Makefile".data, "VPATH += src\nOBJS = foo.o bar.o\n".data),
    ("/r/src/bar.c".data, "x".data)], []⟩

/-- A directory with exactly one `.ld` file, for the empty-ldscript
witness. -/
def fsC9 : FS :=
  ⟨[("/r/a.ld".data, "x".data)],
   [("/r".data, ["a.ld".data])]⟩

/-- An included file contributes `VPATH += data`; the candidate source
exists only under the *included file's* directory (`sub/data/bar.c`), not
under the root's `data/`. -/
def fsC10 : FS :=
  ⟨[("/r/Makefile".data, "include sub/rules.mk\nOBJS = foo.o\n".data),
    ("/r/sub/rules.mk".data, "VPATH += data\nOBJS = bar.o\n".data),
    ("/r/sub/data/bar.c".data, "x".data)], []⟩

/-- Variant of `fsC10` with the candidate also present under the root's `data/`. -/
def fsC10b : FS :=
  ⟨[("/r/Makefile".data, "include sub/rules.mk\nOBJS = foo.o\n".data),
    ("/r/sub/rules.mk".data, "VPATH += data\nOBJS = bar.o\n".data),
    ("/r/sub/data/bar.c".data, "x".data),
    ("/r/data/bar.c".data, "x".data)], []⟩

/-- Variant of `fsC10` with an extra file at a path no existence test consults. -/
def fsC10c : FS :=
  ⟨[("/r/Makefile".data, "include sub/rules.mk\nOBJS = foo.o\n".data),
    ("/r/sub/rules.mk".data, "VPATH += data\nOBJS = bar.o\n".data),
    ("/r/sub/data/bar.c".data, "x".data),
    ("/elsewhere/bar.c".data, "x".data)], []⟩

/-! ## Lemmas about the merge -/

/-- The guarded-append merge appends exactly the fresh values: the result is
the old list followed by a duplicate-free block of values that come from the
merged list and were not already present, and every merged value ends up in
the result. -/
theorem mergeList_char (ys : List Str) : ∀ xs : List Str,
    ∃ t, mergeList xs ys = xs ++ t ∧ t.Nodup ∧
      (∀ a ∈ t, a ∈ ys ∧ a ∉ xs) ∧ (∀ v ∈ ys, v ∈ xs ++ t) := by
  induction ys with
  | nil => exact fun xs => ⟨[], by simp [mergeList]⟩
  | cons y ys ih =>
    intro xs
    have hstep : mergeList xs (y :: ys) = mergeList (if y ∈ xs then xs else xs ++ [y]) ys := by
      simp [mergeList]
    by_cases hy : y ∈ xs
    · obtain ⟨t, h1, h2, h3, h4⟩ := ih xs
      refine ⟨t, ?_, h2, ?_, ?_⟩
      · rw [hstep, if_pos hy]; exact h1
      · exact fun a ha => ⟨List.mem_cons.mpr (Or.inr (h3 a ha).1), (h3 a ha).2⟩
      · intro v hv
        rcases List.mem_cons.mp hv with h | h
        · exact List.mem_append.mpr (Or.inl (h ▸ hy))
        · exact h4 v h
    · obtain ⟨t, h1, h2, h3, h4⟩ := ih (xs ++ [y])
      have hassoc : xs ++ [y] ++ t = xs ++ y :: t := by simp
      refine ⟨y :: t, ?_, ?_, ?_, ?_⟩
      · rw [hstep, if_neg hy, h1, hassoc]
      · refine List.nodup_cons.mpr ⟨fun hmem => ?_, h2⟩
        exact (h3 y hmem).2 (List.mem_append.mpr (Or.inr (List.mem_singleton.mpr rfl)))
      · intro a ha
        rcases List.mem_cons.mp ha with h | h
        · exact ⟨List.mem_cons.mpr (Or.inl h), h ▸ hy⟩
        · refine ⟨List.mem_cons.mpr (Or.inr (h3 a h).1), fun hmem => (h3 a h).2 (List.mem_append.mpr (Or.inl hmem))⟩
      · intro v hv
        rcases List.mem_cons.mp hv with h | h
        · exact List.mem_append.mpr (Or.inr (h ▸ List.mem_cons_self _ _))
        · have := h4 v h
          rw [hassoc] at this
          exact this

/-- Old values survive the merge. -/
theorem mem_mergeList_left {xs : List Str} (ys : List Str) {a : Str} (h : a ∈ xs) :
    a ∈ mergeList xs ys := by
  obtain ⟨t, h1, -, -, -⟩ := mergeList_char ys xs
  rw [h1]; exact List.mem_append.mpr (Or.inl h)

/-- Merged values end up in the result. -/
theorem mem_mergeList_right (xs : List Str) {ys : List Str} {a : Str} (h : a ∈ ys) :
    a ∈ mergeList xs ys := by
  obtain ⟨t, h1, -, -, h4⟩ := mergeList_char ys xs
  rw [h1]; exact h1 ▸ h4 a h

/-! ## Lemmas about reading and the include universe -/

/-- A successful read exhibits the file among the filesystem's files. -/
theorem readFile_mem {fs : FS} {p c : Str} (h : readFile fs p = some c) :
    (p, c) ∈ fs.files := by
  unfold readFile at h
  cases hf : fs.files.find? (fun e => e.1 = p) with
  | none => rw [hf] at h; exact absurd h (by simp)
  | some e =>
    rw [hf] at h
    have he : e ∈ fs.files := List.mem_of_find?_eq_some hf
    have hp : e.1 = p := by
      have := List.find?_some hf
      exact of_decide_eq_true this
    have hc : e.2 = c := by simpa using h
    have : e = (p, c) := Prod.ext hp hc
    exact this ▸ he

/-- Every include string a parsed file contributes is in the universe. -/
theorem mem_includesUniverse {fs : FS} {p : Str} {m2 : MkData}
    (h : parseFile fs p = some m2) : ∀ a ∈ m2.includes, a ∈ includesUniverse fs := by
  intro a ha
  unfold parseFile at h
  cases hrf : readFile fs p with
  | none => rw [hrf] at h; exact absurd h (by simp)
  | some c =>
    rw [hrf] at h
    have h : parse_makefile_data c = some m2 := h
    have hmem : (p, c) ∈ fs.files := readFile_mem hrf
    unfold includesUniverse
    refine List.mem_flatten.mpr ⟨m2.includes, ?_, ha⟩
    refine List.mem_map.mpr ⟨(p, c), hmem, ?_⟩
    show (match parse_makefile_data c with | some m => m.includes | none => []) = m2.includes
    rw [h]

/-- The include list of a parsed file is one contiguous segment of the
universe: the universe, counting multiplicity, is the concatenation of the
include lists of all files, one include entry per include line. -/
theorem includes_segment {fs : FS} {p : Str} {root : MkData}
    (h : parseFile fs p = some root) :
    ∃ pre post, includesUniverse fs = pre ++ root.includes ++ post := by
  unfold parseFile at h
  cases hrf : readFile fs p with
  | none => rw [hrf] at h; exact absurd h (by simp)
  | some c =>
    rw [hrf] at h
    have h : parse_makefile_data c = some root := h
    have hmem : (p, c) ∈ fs.files := readFile_mem hrf
    obtain ⟨l1, l2, hl⟩ := List.append_of_mem hmem
    refine ⟨(l1.map (fun e => match parse_makefile_data e.2 with
        | some m => m.includes | none => [])).flatten,
      (l2.map (fun e => match parse_makefile_data e.2 with
        | some m => m.includes | none => [])).flatten, ?_⟩
    unfold includesUniverse
    rw [hl, List.map_append, List.map_cons, List.flatten_append, List.flatten_cons]
    simp only [h]
    rw [List.append_assoc]

/-! ## Lemmas about the include-merging loop -/

/-- Unfolding of one loop iteration. -/
theorem resolveLoop_succ (fs : FS) (sd : Str) (fuel : Nat) (m : MkData) (i : Nat) :
    resolveLoop fs sd (fuel + 1) m i =
      if i < m.includes.length then
        match parseFile fs (normpath (pjoin sd (m.includes.getD i []))) with
        | none => none
        | some m2 => resolveLoop fs sd fuel (mergeData m m2) (i + 1)
      else some m := rfl

/-- Composing two fresh duplicate-free blocks appended one after the other. -/
theorem compose_block {xs s t : List Str} {P : Str → Prop}
    (hsn : s.Nodup) (hs : ∀ a ∈ s, P a ∧ a ∉ xs)
    (htn : t.Nodup) (ht : ∀ a ∈ t, P a ∧ a ∉ xs ++ s) :
    (s ++ t).Nodup ∧ ∀ a ∈ s ++ t, P a ∧ a ∉ xs := by
  constructor
  · refine List.Nodup.append hsn htn ?_
    intro a ha hat
    exact (ht a hat).2 (List.mem_append.mpr (Or.inr ha))
  · intro a ha
    rcases List.mem_append.mp ha with h | h
    · exact hs a h
    · exact ⟨(ht a h).1, fun hm => (ht a h).2 (List.mem_append.mpr (Or.inl hm))⟩

/-- A successful run of the loop only appends to each field of the
accumulated rule set, and appends a duplicate-free block of values that were
not already present; appended include strings come from the universe. -/
theorem resolveLoop_appends (fs : FS) (sd : Str) : ∀ (fuel : Nat) (m : MkData) (i : Nat)
    (M : MkData), resolveLoop fs sd fuel m i = some M →
    ∃ t1 t2 t3,
      M.includes = m.includes ++ t1 ∧ t1.Nodup ∧
        (∀ a ∈ t1, a ∈ includesUniverse fs ∧ a ∉ m.includes) ∧
      M.vpath = m.vpath ++ t2 ∧ t2.Nodup ∧ (∀ a ∈ t2, a ∉ m.vpath) ∧
      M.objs = m.objs ++ t3 ∧ t3.Nodup ∧ (∀ a ∈ t3, a ∉ m.objs) := by
  intro fuel
  induction fuel with
  | zero => intro m i M h; exact absurd h (by simp [resolveLoop])
  | succ fuel ih =>
    intro m i M h
    rw [resolveLoop_succ] at h
    by_cases hlt : i < m.includes.length
    · rw [if_pos hlt] at h
      cases hp : parseFile fs (normpath (pjoin sd (m.includes.getD i []))) with
      | none => rw [hp] at h; exact absurd h (by simp)
      | some m2 =>
        rw [hp] at h
        obtain ⟨t1', t2', t3', H1, H2, H3, H4, H5, H6, H7, H8, H9⟩ := ih _ _ _ h
        obtain ⟨s1, hs1, hs1n, hs1p, -⟩ := mergeList_char m2.includes m.includes
        obtain ⟨s2, hs2, hs2n, hs2p, -⟩ := mergeList_char m2.vpath m.vpath
        obtain ⟨s3, hs3, hs3n, hs3p, -⟩ := mergeList_char m2.objs m.objs
        have hmi : (mergeData m m2).includes = m.includes ++ s1 := hs1
        have hmv : (mergeData m m2).vpath = m.vpath ++ s2 := hs2
        have hmo : (mergeData m m2).objs = m.objs ++ s3 := hs3
        rw [hmi] at H1 H3
        rw [hmv] at H4 H6
        rw [hmo] at H7 H9
        have hb1 := compose_block (P := fun a => a ∈ includesUniverse fs) hs1n
          (fun a ha => ⟨mem_includesUniverse hp a (hs1p a ha).1, (hs1p a ha).2⟩) H2
          (fun a ha => ⟨(H3 a ha).1, (H3 a ha).2⟩)
        have hb2 := compose_block (P := fun _ => True) hs2n
          (fun a ha => ⟨trivial, (hs2p a ha).2⟩) H5
          (fun a ha => ⟨trivial, H6 a ha⟩)
        have hb3 := compose_block (P := fun _ => True) hs3n
          (fun a ha => ⟨trivial, (hs3p a ha).2⟩) H8
          (fun a ha => ⟨trivial, H9 a ha⟩)
        refine ⟨s1 ++ t1', s2 ++ t2', s3 ++ t3',
          by rw [H1, List.append_assoc], hb1.1, hb1.2,
          by rw [H4, List.append_assoc], hb2.1, fun a ha => (hb2.2 a ha).2,
          by rw [H7, List.append_assoc], hb3.1, fun a ha => (hb3.2 a ha).2⟩
    · rw [if_neg hlt] at h
      have hM : M = m := by injection h with h'; exact h'.symm
      subst hM
      exact ⟨[], [], [], by simp, List.nodup_nil, by simp, by simp, List.nodup_nil, by simp,
        by simp, List.nodup_nil, by simp⟩

/-- Every include entry of the final merged rule set at an index the loop has
not yet passed gets processed: its file parses, and all of its parsed
contents are merged into the final rule set. -/
theorem resolveLoop_processed (fs : FS) (sd : Str) : ∀ (fuel : Nat) (m : MkData) (i : Nat)
    (M : MkData), resolveLoop fs sd fuel m i = some M →
    ∀ j, i ≤ j → j < M.includes.length →
    ∃ m2, parseFile fs (normpath (pjoin sd (M.includes.getD j []))) = some m2 ∧
      (∀ a ∈ m2.includes, a ∈ M.includes) ∧ (∀ a ∈ m2.vpath, a ∈ M.vpath) ∧
      (∀ a ∈ m2.objs, a ∈ M.objs) := by
  intro fuel
  induction fuel with
  | zero => intro m i M h; exact absurd h (by simp [resolveLoop])
  | succ fuel ih =>
    intro m i M h j hij hj
    rw [resolveLoop_succ] at h
    by_cases hlt : i < m.includes.length
    · rw [if_pos hlt] at h
      cases hp : parseFile fs (normpath (pjoin sd (m.includes.getD i []))) with
      | none => rw [hp] at h; exact absurd h (by simp)
      | some m2 =>
        rw [hp] at h
        rcases Nat.lt_or_ge i j with hlt2 | hge
        · exact ih _ _ _ h j hlt2 hj
        · have hji : j = i := Nat.le_antisymm hge hij
          subst hji
          obtain ⟨t1', t2', t3', H1, -, -, H4, -, -, H7, -, -⟩ :=
            resolveLoop_appends fs sd _ _ _ _ h
          obtain ⟨s1, hs1, -, -, -⟩ := mergeList_char m2.includes m.includes
          have hmi : (mergeData m m2).includes = m.includes ++ s1 := hs1
          have hgetD : M.includes.getD j [] = m.includes.getD j [] := by
            rw [H1, hmi, List.append_assoc]
            exact List.getD_append _ _ _ j hlt
          refine ⟨m2, by rw [hgetD]; exact hp, ?_, ?_, ?_⟩
          · intro a ha
            have hmem : a ∈ (mergeData m m2).includes := mem_mergeList_right _ ha
            rw [H1]; exact List.mem_append.mpr (Or.inl hmem)
          · intro a ha
            have hmem : a ∈ (mergeData m m2).vpath := mem_mergeList_right _ ha
            rw [H4]; exact List.mem_append.mpr (Or.inl hmem)
          · intro a ha
            have hmem : a ∈ (mergeData m m2).objs := mem_mergeList_right _ ha
            rw [H7]; exact List.mem_append.mpr (Or.inl hmem)
    · rw [if_neg hlt] at h
      have hM : M = m := by injection h with h'; exact h'.symm
      subst hM
      omega

/-- The loop terminates with enough fuel: the index grows by one per
iteration while the include list, seeded with the root's and growing only by
fresh strings from the universe, stays bounded. -/
theorem resolveLoop_total (fs : FS) (sd : Str) (root : MkData)
    (hparse : ∀ s ∈ root.includes ++ includesUniverse fs,
      (parseFile fs (normpath (pjoin sd s))).isSome = true) :
    ∀ (fuel : Nat) (t : List Str) (m : MkData) (i : Nat),
      m.includes = root.includes ++ t → t.Nodup → (∀ a ∈ t, a ∈ includesUniverse fs) →
      i ≤ m.includes.length →
      root.includes.length + (includesUniverse fs).length + 1 ≤ fuel + i →
      ∃ M, resolveLoop fs sd fuel m i = some M := by
  intro fuel
  induction fuel with
  | zero =>
    intro t m i h1 h2 h3 h4 h5
    exfalso
    have htlen : t.length ≤ (includesUniverse fs).length :=
      (List.subperm_of_subset h2 h3).length_le
    have : m.includes.length = root.includes.length + t.length := by
      rw [h1, List.length_append]
    omega
  | succ fuel ih =>
    intro t m i h1 h2 h3 h4 h5
    by_cases hlt : i < m.includes.length
    · have hsmem : m.includes.getD i [] ∈ m.includes := by
        rw [List.getD_eq_getElem _ _ hlt]
        exact List.getElem_mem hlt
      have hsU : m.includes.getD i [] ∈ root.includes ++ includesUniverse fs := by
        have hsmem2 : m.includes.getD i [] ∈ root.includes ++ t := by
          have h' := hsmem
          revert h'
          generalize m.includes.getD i [] = s
          intro h'
          rwa [h1] at h'
        rcases List.mem_append.mp hsmem2 with h | h
        · exact List.mem_append.mpr (Or.inl h)
        · exact List.mem_append.mpr (Or.inr (h3 _ h))
      obtain ⟨m2, hm2⟩ := Option.isSome_iff_exists.mp (hparse _ hsU)
      obtain ⟨s1, hs1, hs1n, hs1p, -⟩ := mergeList_char m2.includes m.includes
      have hmi : (mergeData m m2).includes = m.includes ++ s1 := hs1
      obtain ⟨M, hM⟩ := ih (t ++ s1) (mergeData m m2) (i + 1)
        (by rw [hmi, h1, List.append_assoc])
        (by
          refine List.Nodup.append h2 hs1n ?_
          intro a ha has
          exact (hs1p a has).2 (h1 ▸ List.mem_append.mpr (Or.inr ha)))
        (by
          intro a ha
          rcases List.mem_append.mp ha with h | h
          · exact h3 a h
          · exact mem_includesUniverse hm2 a (hs1p a h).1)
        (by
          have : m.includes.length ≤ (mergeData m m2).includes.length := by
            rw [hmi, List.length_append]; omega
          omega)
        (by omega)
      exact ⟨M, by rw [resolveLoop_succ, if_pos hlt, hm2]; exact hM⟩
    · exact ⟨m, by rw [resolveLoop_succ, if_neg hlt]⟩

/-- C1: `get_source_files` merges the contents (includes, search paths,
object names) of every file in the transitive closure of the include relation
starting from the root Makefile — files reachable only through several
include levels included — and resolution terminates (the merged rule set and
the source list exist) even when the include relation has a cycle, provided
every reachable include string denotes a parsable file. -/
theorem get_source_files_transitive_closure (fs : FS) (sd : Str) (root : MkData)
    (hroot : parseFile fs (pjoin sd "Makefile".data) = some root)
    (hclosed : ∀ s ∈ root.includes ++ includesUniverse fs,
      (parseFile fs (normpath (pjoin sd s))).isSome = true) :
    ∃ M, merged_rule_set fs sd = some M ∧
      (∀ fw, get_source_files fs fw sd = some (M.objs.filterMap
        (fun obj => resolveObj fs fw sd M.vpath (srcFileName obj)))) ∧
      (∀ s, ReachableInclude fs sd root s →
        s ∈ M.includes ∧
        ∀ m2, parseFile fs (normpath (pjoin sd s)) = some m2 →
          (∀ a ∈ m2.includes, a ∈ M.includes) ∧ (∀ a ∈ m2.vpath, a ∈ M.vpath) ∧
          (∀ a ∈ m2.objs, a ∈ M.objs)) := by
  obtain ⟨M, hM⟩ := resolveLoop_total fs sd root hclosed (fuelFor fs root) [] root 0
    (by simp) List.nodup_nil (by simp) (Nat.zero_le _) (by unfold fuelFor; omega)
  have hmerged : merged_rule_set fs sd = some M := by
    unfold merged_rule_set; rw [hroot]; exact hM
  have hproc : ∀ s ∈ M.includes,
      ∀ m2, parseFile fs (normpath (pjoin sd s)) = some m2 →
        (∀ a ∈ m2.includes, a ∈ M.includes) ∧ (∀ a ∈ m2.vpath, a ∈ M.vpath) ∧
        (∀ a ∈ m2.objs, a ∈ M.objs) := by
    intro s hs m2 hm2
    obtain ⟨j, hj, hjs⟩ := List.mem_iff_getElem.mp hs
    have hgetD : M.includes.getD j [] = s := by
      rw [List.getD_eq_getElem _ _ hj, hjs]
    obtain ⟨m2', hm2', hsub1, hsub2, hsub3⟩ :=
      resolveLoop_processed fs sd _ _ _ _ hM j (Nat.zero_le _) hj
    rw [hgetD] at hm2'
    have : m2' = m2 := by rw [hm2'] at hm2; injection hm2
    subst this
    exact ⟨hsub1, hsub2, hsub3⟩
  have hrootsub : ∀ a ∈ root.includes, a ∈ M.includes := by
    obtain ⟨t1, t2, t3, H1, -, -, -, -, -, -, -, -⟩ := resolveLoop_appends fs sd _ _ _ _ hM
    intro a ha
    rw [H1]
    exact List.mem_append.mpr (Or.inl ha)
  refine ⟨M, hmerged, ?_, ?_⟩
  · intro fw
    unfold get_source_files
    rw [hmerged]
  · intro s hreach
    induction hreach with
    | base hs => exact ⟨hrootsub _ hs, hproc _ (hrootsub _ hs)⟩
    | step hs hparse hmem ih =>
      rename_i s' t' m2'
      have ht : t' ∈ M.includes := ((ih.2 m2' hparse).1) t' hmem
      exact ⟨ht, hproc _ ht⟩

/-- C1 witness: the cyclic two-level tree `fsC1` resolves; `b.mk`, reachable
only through the second include level, contributes its include, and its
object `b.o` is merged (first conjunct, computed outright). -/
theorem get_source_files_transitive_closure_witness :
    (merged_rule_set fsC1 "/r".data =
      some ⟨["a.mk".data, "b.mk".data], ["./".data],
            ["root.o".data, "a.o".data, "b.o".data]⟩) ∧
    (∃ M, merged_rule_set fsC1 "/r".data = some M ∧
      (∀ fw, get_source_files fsC1 fw "/r".data = some (M.objs.filterMap
        (fun obj => resolveObj fsC1 fw "/r".data M.vpath (srcFileName obj)))) ∧
      (∀ s, ReachableInclude fsC1 "/r".data rootC1 s →
        s ∈ M.includes ∧
        ∀ m2, parseFile fsC1 (normpath (pjoin "/r".data s)) = some m2 →
          (∀ a ∈ m2.includes, a ∈ M.includes) ∧ (∀ a ∈ m2.vpath, a ∈ M.vpath) ∧
          (∀ a ∈ m2.objs, a ∈ M.objs))) :=
  ⟨by decide,
   get_source_files_transitive_closure fsC1 "/r".data rootC1 (by decide) (by decide)⟩

/-! ## Lemmas about linker-script selection -/

/-- The candidate-collecting fold of `find_ldscript` is a filter followed by
a map to joined paths. -/
theorem ldscript_fold_eq (fs : FS) (sd : Str) : ∀ (l : List Str) (acc : List Str),
    l.foldl (fun acc item =>
      if ¬ isfile fs (pjoin sd item) ∨ ¬ endsWithLd item then acc
      else acc ++ [pjoin sd item]) acc
      = acc ++ (l.filter (fun it => isfile fs (pjoin sd it) && endsWithLd it)).map
          (fun it => pjoin sd it) := by
  intro l
  induction l with
  | nil => intro acc; simp
  | cons x xs ih =>
    intro acc
    rw [List.foldl_cons, List.filter_cons]
    by_cases hx : (isfile fs (pjoin sd x) && endsWithLd x) = true
    · have hcond : ¬ (¬ isfile fs (pjoin sd x) ∨ ¬ endsWithLd x) := by
        simp only [Bool.and_eq_true] at hx
        simp [hx.1, hx.2]
      rw [if_neg hcond, if_pos hx, ih, List.map_cons]
      simp
    · have hcond : ¬ isfile fs (pjoin sd x) ∨ ¬ endsWithLd x := by
        simp only [Bool.and_eq_true] at hx
        by_cases h1 : isfile fs (pjoin sd x) = true
        · exact Or.inr (fun h2 => hx ⟨h1, h2⟩)
        · exact Or.inl h1
      rw [if_pos hcond, if_neg hx, ih]

/-- The decision chain of `find_ldscript`, with the auto-detection branch
expressed over the unsorted directory listing: the project-side override
wins; else the unique `.ld` regular file directly inside `src_dir`, when
exactly one exists; else the board-named script inside `src_dir`; else
none. -/
theorem find_ldscript_cases (fs : FS) (pd bl sd : Str) :
    find_ldscript fs pd bl sd =
      if isfile fs (pjoin pd bl) then some (pjoin pd bl)
      else
        match (listdir fs sd).filter (fun it => isfile fs (pjoin sd it) && endsWithLd it) with
        | [x] => some (pjoin sd x)
        | _ => if isfile fs (pjoin sd bl) then some (pjoin sd bl) else none := by
  have hdef : find_ldscript fs pd bl sd =
      (if isfile fs (pjoin pd bl) then some (pjoin pd bl)
       else if ((sortStr (listdir fs sd)).foldl (fun acc item =>
           if ¬ isfile fs (pjoin sd item) ∨ ¬ endsWithLd item then acc
           else acc ++ [pjoin sd item]) []).length = 1 then
         some (((sortStr (listdir fs sd)).foldl (fun acc item =>
           if ¬ isfile fs (pjoin sd item) ∨ ¬ endsWithLd item then acc
           else acc ++ [pjoin sd item]) []).getD 0 [])
       else if isfile fs (pjoin sd bl) then some (pjoin sd bl)
       else none) := rfl
  rw [hdef, ldscript_fold_eq, List.nil_append]
  have hperm : ((sortStr (listdir fs sd)).filter
        (fun it => isfile fs (pjoin sd it) && endsWithLd it)).Perm
      ((listdir fs sd).filter (fun it => isfile fs (pjoin sd it) && endsWithLd it)) :=
    (List.perm_insertionSort _ _).filter _
  by_cases h1 : isfile fs (pjoin pd bl)
  · rw [if_pos h1, if_pos h1]
  · rw [if_neg h1, if_neg h1]
    cases hF : (listdir fs sd).filter (fun it => isfile fs (pjoin sd it) && endsWithLd it) with
    | nil =>
      rw [hF] at hperm
      have hnil := List.Perm.eq_nil hperm
      rw [hnil]
      simp
    | cons x xs =>
      cases xs with
      | nil =>
        rw [hF] at hperm
        have hsing : (sortStr (listdir fs sd)).filter
            (fun it => isfile fs (pjoin sd it) && endsWithLd it) = [x] :=
          List.perm_singleton.mp hperm
        rw [hsing]
        simp
      | cons y ys =>
        rw [hF] at hperm
        have hlen : ((sortStr (listdir fs sd)).filter
            (fun it => isfile fs (pjoin sd it) && endsWithLd it)).length = ys.length + 2 := by
          rw [hperm.length_eq]
          simp only [List.length_cons]
        rw [List.length_map]
        rw [if_neg (by omega)]

/-- C2: `find_ldscript` returns the first satisfied of exactly four
alternatives, in strict priority order with no fallthrough once matched:
the board-named path under the project directory when it is an existing
file; else the unique `.ld` regular file directly inside the root directory
(non-recursive listing) when exactly one exists; else the board-named path
under the root directory when it is an existing file; else none. -/
theorem find_ldscript_priority (fs : FS) (pd bl sd : Str) :
    find_ldscript fs pd bl sd =
      if isfile fs (pjoin pd bl) then some (pjoin pd bl)
      else
        match (listdir fs sd).filter (fun it => isfile fs (pjoin sd it) && endsWithLd it) with
        | [x] => some (pjoin sd x)
        | _ => if isfile fs (pjoin sd bl) then some (pjoin sd bl) else none :=
  find_ldscript_cases fs pd bl sd

/-- Only paths of regular files satisfy `isfile`. -/
theorem isfile_eq_false (fs : FS) {p : Str} (h : ∀ e ∈ fs.files, e.1 ≠ p) :
    isfile fs p = false := by
  unfold isfile readFile
  have : fs.files.find? (fun e => e.1 = p) = none := by
    rw [List.find?_eq_none]
    intro e he
    simp [h e he]
  rw [this]
  rfl

/-- Joining the empty board-ldscript to a directory yields the directory
itself (when it already ends in the separator, or is empty) or the directory
with a trailing separator — never a regular file's path, in a filesystem
whose file paths are nonempty and do not end in the separator. -/
theorem isfile_pjoin_empty (fs : FS)
    (hwf : ∀ e ∈ fs.files, e.1 ≠ [] ∧ e.1.getLast? ≠ some sepC) (a : Str) :
    isfile fs (pjoin a []) = false := by
  apply isfile_eq_false
  intro e he heq
  by_cases ha : a = []
  · subst ha
    have : pjoin ([] : Str) [] = [] := rfl
    rw [this] at heq
    exact (hwf e he).1 heq
  · by_cases hlast : a.getLast? = some sepC
    · have : pjoin a [] = a := by
        unfold pjoin
        rw [if_neg (by simp), if_neg ha, if_pos hlast, List.append_nil]
      rw [this] at heq
      exact (hwf e he).2 (heq ▸ hlast)
    · have : pjoin a [] = a ++ [sepC] := by
        unfold pjoin
        rw [if_neg (by simp), if_neg ha, if_neg hlast]
      rw [this] at heq
      exact (hwf e he).2 (by rw [heq, List.getLast?_concat])

/-- C9: with an absent (empty) `build.ldscript` entry, neither the
project-override branch nor the named-candidate branch of `find_ldscript`
can fire, since the joined paths are directory paths and not regular files;
the result is the sole `.ld` candidate when exactly one exists, else none. -/
theorem find_ldscript_empty_ldscript (fs : FS) (pd sd : Str)
    (hwf : ∀ e ∈ fs.files, e.1 ≠ [] ∧ e.1.getLast? ≠ some sepC) :
    find_ldscript fs pd [] sd =
      match (listdir fs sd).filter (fun it => isfile fs (pjoin sd it) && endsWithLd it) with
      | [x] => some (pjoin sd x)
      | _ => none := by
  rw [find_ldscript_cases]
  rw [isfile_pjoin_empty fs hwf pd, isfile_pjoin_empty fs hwf sd]
  simp only [Bool.false_eq_true, if_false]

/-- C9 witness: in `fsC9`, whose root directory holds exactly one `.ld`
file, an empty ldscript entry selects that file. -/
theorem find_ldscript_empty_ldscript_witness :
    find_ldscript fsC9 "/p".data [] "/r".data = some "/r/a.ld".data :=
  (find_ldscript_empty_ldscript fsC9 "/p".data "/r".data (by decide)).trans (by decide)

/-! ## Lemmas about the mandatory object-list match -/

/-- If the object-list pattern matches at no line start, the search fails. -/
theorem findObjsAux_eq_none : ∀ (fuel : Nat) (l : Str),
    (∀ s ∈ lineSuffixesAux fuel l, matchObjsAt s = none) →
    findObjsAux fuel l = none := by
  intro fuel
  induction fuel with
  | zero => intro l _; rfl
  | succ fuel ih =>
    intro l h
    have h0 : matchObjsAt l = none := by
      apply h
      unfold lineSuffixesAux
      exact List.mem_cons_self _ _
    unfold findObjsAux
    rw [h0]
    cases hd : l.dropWhile (fun c => c ≠ '\n') with
    | nil => rfl
    | cons c tail =>
      apply ih
      intro s hs
      apply h
      unfold lineSuffixesAux
      rw [hd]
      exact List.mem_cons_of_mem _ hs

/-- C3: a rule file whose contents match the object-list pattern at no line
start makes `parse_makefile_data` fail rather than return a rule set with an
empty object list, and the failure aborts the whole resolution — both when
the file is the root Makefile and when it is reached as an include — with no
partial result. -/
theorem parse_fails_without_object_list (content : Str)
    (h : ∀ s ∈ lineSuffixes content, matchObjsAt s = none) :
    parse_makefile_data content = none ∧
    (∀ fs sd, readFile fs (pjoin sd "Makefile".data) = some content →
      merged_rule_set fs sd = none ∧ ∀ fw, get_source_files fs fw sd = none) ∧
    (∀ fs sd fuel m i, i < m.includes.length →
      readFile fs (normpath (pjoin sd (m.includes.getD i []))) = some content →
      resolveLoop fs sd (fuel + 1) m i = none) := by
  have hfind : findObjs content = none := findObjsAux_eq_none _ _ h
  have hparse : parse_makefile_data content = none := by
    unfold parse_makefile_data
    rw [hfind]
  refine ⟨hparse, ?_, ?_⟩
  · intro fs sd hread
    have hm : merged_rule_set fs sd = none := by
      unfold merged_rule_set parseFile
      rw [hread]
      show (match parse_makefile_data content with
            | none => none
            | some root => resolveLoop fs sd (fuelFor fs root) root 0) = none
      rw [hparse]
    exact ⟨hm, fun fw => by unfold get_source_files; rw [hm]⟩
  · intro fs sd fuel m i hi hread
    rw [resolveLoop_succ, if_pos hi]
    unfold parseFile
    rw [hread]
    show (match parse_makefile_data content with
          | none => none
          | some m2 => resolveLoop fs sd fuel (mergeData m m2) (i + 1)) = none
    rw [hparse]

/-- C3 witness: a rule file consisting of a lone `VPATH` line has no
object-list match, and installing it as the root Makefile aborts the whole
resolution. -/
theorem parse_fails_without_object_list_witness :
    parse_makefile_data "VPATH += a\n".data = none ∧
    (∀ fs sd, readFile fs (pjoin sd "Makefile".data) = some "VPATH += a\n".data →
      merged_rule_set fs sd = none ∧ ∀ fw, get_source_files fs fw sd = none) ∧
    (∀ fs sd fuel m i, i < m.includes.length →
      readFile fs (normpath (pjoin sd (m.includes.getD i []))) = some "VPATH += a\n".data →
      resolveLoop fs sd (fuel + 1) m i = none) :=
  parse_fails_without_object_list "VPATH += a\n".data (by decide)

/-! ## Lemmas about source-file resolution -/

/-- The inner search loop with its local `src_path` binding zeta-expanded. -/
theorem resolveObj_eq (fs : FS) (fw sd : Str) (vpath : List Str) (f : Str) :
    resolveObj fs fw sd vpath f = vpath.findSome? (fun sp =>
      if isfile fs (normpath (pjoin (pjoin sd sp) f)) then
        some (buildPath fw (normpath (pjoin (pjoin sd sp) f)))
      else none) := rfl

/-- A successful `findSome?` returns the image of the first element on which the function
fires, and fails on every earlier element. -/
theorem findSome?_first {β : Type} (g : Str → Option β) : ∀ (l : List Str) (r : β),
    l.findSome? g = some r →
    ∃ k, k < l.length ∧ g (l.getD k []) = some r ∧ ∀ j, j < k → g (l.getD j []) = none := by
  intro l
  induction l with
  | nil => intro r h; exact absurd h (by simp)
  | cons a as ih =>
    intro r h
    rw [List.findSome?_cons] at h
    cases hg : g a with
    | some b =>
      rw [hg] at h
      refine ⟨0, Nat.succ_pos _, ?_, fun j hj => absurd hj (Nat.not_lt_zero j)⟩
      rw [List.getD_cons_zero, hg]
      exact h
    | none =>
      rw [hg] at h
      obtain ⟨k, hk, hgk, hprev⟩ := ih r h
      refine ⟨k + 1, by simpa using Nat.succ_lt_succ hk, by simpa using hgk, ?_⟩
      intro j hj
      cases j with
      | zero => simpa using hg
      | succ j2 => simpa using hprev j2 (Nat.lt_of_succ_lt_succ hj)

/-- C4: each object contributes at most one entry, taken from the earliest
search path (in `searchPaths` order) under which the derived source file
exists, never a later one; the source list is the objects' resolutions in
object order.  (The concrete `OBJS = foo.o bar.o` / `VPATH += src:extra`
scenario is evaluated in the witness.) -/
theorem resolve_first_match_wins (fs : FS) (fw sd : Str) (M : MkData) (srcs : List Str)
    (hm : merged_rule_set fs sd = some M)
    (hg : get_source_files fs fw sd = some srcs) :
    srcs = M.objs.filterMap (fun obj => resolveObj fs fw sd M.vpath (srcFileName obj)) ∧
    srcs.length ≤ M.objs.length ∧
    (∀ f r, resolveObj fs fw sd M.vpath f = some r →
      ∃ k, k < M.vpath.length ∧
        isfile fs (normpath (pjoin (pjoin sd (M.vpath.getD k [])) f)) = true ∧
        (∀ j, j < k → isfile fs (normpath (pjoin (pjoin sd (M.vpath.getD j [])) f)) = false) ∧
        r = buildPath fw (normpath (pjoin (pjoin sd (M.vpath.getD k [])) f))) := by
  have he : srcs = M.objs.filterMap (fun obj => resolveObj fs fw sd M.vpath (srcFileName obj)) := by
    unfold get_source_files at hg
    rw [hm] at hg
    injection hg with hg2
    exact hg2.symm
  refine ⟨he, ?_, ?_⟩
  · rw [he]
    exact List.length_filterMap_le _ _
  · intro f r h
    rw [resolveObj_eq] at h
    obtain ⟨k, hk, hgk, hprev⟩ := findSome?_first _ M.vpath r h
    refine ⟨k, hk, ?_, ?_, ?_⟩
    · by_cases hf : isfile fs (normpath (pjoin (pjoin sd (M.vpath.getD k [])) f)) = true
      · exact hf
      · rw [if_neg hf] at hgk
        exact absurd hgk (by simp)
    · intro j hj
      have := hprev j hj
      by_cases hf : isfile fs (normpath (pjoin (pjoin sd (M.vpath.getD j [])) f)) = true
      · rw [if_pos hf] at this
        exact absurd this (by simp)
      · simpa using hf
    · by_cases hf : isfile fs (normpath (pjoin (pjoin sd (M.vpath.getD k [])) f)) = true
      · rw [if_pos hf] at hgk
        injection hgk with hgk2
        exact hgk2.symm
      · rw [if_neg hf] at hgk
        exact absurd hgk (by simp)

/-- C4 witness: the claim's concrete scenario — `src/foo.c` and
`extra/bar.c` exist, `src/bar.c` does not — yields exactly the two re-rooted
paths, `src`'s before `extra`'s, and the first-match property holds there. -/
theorem resolve_first_match_wins_witness :
    (get_source_files fsC4 "/fw".data "/fw/lib".data =
      some ["$BUILD_DIR/FrameworkLibOpenCM3/lib/src/foo.c".data,
            "$BUILD_DIR/FrameworkLibOpenCM3/lib/extra/bar.c".data]) ∧
    (let M : MkData := ⟨[], ["./".data, "src".data, "extra".data], ["foo.o".data, "bar.o".data]⟩
     let srcs : List Str := ["$BUILD_DIR/FrameworkLibOpenCM3/lib/src/foo.c".data,
                             "$BUILD_DIR/FrameworkLibOpenCM3/lib/extra/bar.c".data]
     srcs = M.objs.filterMap
        (fun obj => resolveObj fsC4 "/fw".data "/fw/lib".data M.vpath (srcFileName obj)) ∧
     srcs.length ≤ M.objs.length ∧
     (∀ f r, resolveObj fsC4 "/fw".data "/fw/lib".data M.vpath f = some r →
       ∃ k, k < M.vpath.length ∧
         isfile fsC4 (normpath (pjoin (pjoin "/fw/lib".data (M.vpath.getD k [])) f)) = true ∧
         (∀ j, j < k →
           isfile fsC4 (normpath (pjoin (pjoin "/fw/lib".data (M.vpath.getD j [])) f)) = false) ∧
         r = buildPath "/fw".data
           (normpath (pjoin (pjoin "/fw/lib".data (M.vpath.getD k [])) f)))) :=
  ⟨by decide,
   resolve_first_match_wins fsC4 "/fw".data "/fw/lib".data
     ⟨[], ["./".data, "src".data, "extra".data], ["foo.o".data, "bar.o".data]⟩
     ["$BUILD_DIR/FrameworkLibOpenCM3/lib/src/foo.c".data,
      "$BUILD_DIR/FrameworkLibOpenCM3/lib/extra/bar.c".data]
     (by decide) (by decide)⟩

/-- Entries on which the function fails may be dropped from a `filterMap`. -/
theorem filterMap_filter_of_none {α β : Type} [DecidableEq α]
    (f : α → Option β) (a : α) (hfa : f a = none) :
    ∀ l : List α, l.filterMap f = (l.filter (fun o => o ≠ a)).filterMap f := by
  intro l
  induction l with
  | nil => rfl
  | cons x xs ih =>
    by_cases hx : x = a
    · subst hx
      rw [List.filterMap_cons, hfa, List.filter_cons, if_neg (by simp)]
      exact ih
    · rw [List.filter_cons, if_pos (by simpa using hx), List.filterMap_cons, List.filterMap_cons]
      cases f x <;> simp [ih]

/-- C6: an object whose derived source file exists under none of the merged
search paths is silently omitted: resolution still succeeds and the result
is exactly the resolution of the remaining objects. -/
theorem unresolved_object_dropped (fs : FS) (fw sd : Str) (M : MkData) (obj : Str)
    (hm : merged_rule_set fs sd = some M) (hobj : obj ∈ M.objs)
    (hnone : ∀ sp ∈ M.vpath,
      isfile fs (normpath (pjoin (pjoin sd sp) (srcFileName obj))) = false) :
    ∃ srcs, get_source_files fs fw sd = some srcs ∧
      srcs = (M.objs.filter (fun o => o ≠ obj)).filterMap
        (fun o => resolveObj fs fw sd M.vpath (srcFileName o)) := by
  have hro : resolveObj fs fw sd M.vpath (srcFileName obj) = none := by
    rw [resolveObj_eq, List.findSome?_eq_none_iff]
    intro sp hsp
    rw [hnone sp hsp]
    simp
  refine ⟨_, by unfold get_source_files; rw [hm], ?_⟩
  exact filterMap_filter_of_none _ obj hro M.objs

/-- C6 witness: in `fsC6`, `foo.o` has no source under `./` or `src` while
`bar.o` resolves; the result is `bar`'s path alone (first conjunct). -/
theorem unresolved_object_dropped_witness :
    (get_source_files fsC6 "/fw".data "/r".data = some ["/r/src/bar.c".data]) ∧
    (∃ srcs, get_source_files fsC6 "/fw".data "/r".data = some srcs ∧
      srcs = ((⟨[], ["./".data, "src".data], ["foo.o".data, "bar.o".data]⟩ : MkData).objs.filter
          (fun o => o ≠ "foo.o".data)).filterMap
        (fun o => resolveObj fsC6 "/fw".data "/r".data ["./".data, "src".data] (srcFileName o))) :=
  ⟨by decide,
   unresolved_object_dropped fsC6 "/fw".data "/r".data
     ⟨[], ["./".data, "src".data], ["foo.o".data, "bar.o".data]⟩ "foo.o".data
     (by decide) (by decide) (by decide)⟩

/-- C10: the existence tests of the search loop consult only paths of the
form `normpath(join(join(src_dir, search_path), src_file))` — the search
path joined to the scanned root directory, never to the directory of the
file that contributed it: two filesystems agreeing on exactly those paths
resolve every object identically. -/
theorem search_paths_root_relative (fs1 fs2 : FS) (fw sd f : Str) (vpath : List Str)
    (h : ∀ sp ∈ vpath, isfile fs1 (normpath (pjoin (pjoin sd sp) f)) =
      isfile fs2 (normpath (pjoin (pjoin sd sp) f))) :
    resolveObj fs1 fw sd vpath f = resolveObj fs2 fw sd vpath f := by
  rw [resolveObj_eq, resolveObj_eq]
  revert h
  induction vpath with
  | nil => intro h; rfl
  | cons sp tl ih =>
    intro h
    rw [List.findSome?_cons, List.findSome?_cons]
    have hsp := h sp (List.mem_cons_self _ _)
    rw [hsp, ih (fun x hx => h x (List.mem_cons_of_mem _ hx))]

/-- C10 witness: the included file `sub/rules.mk` contributes the search
path `data` verbatim (first conjunct); the existence test is against
`/r/data/bar.c`, so with the file only at `/r/sub/data/bar.c` (relative to
the includer) nothing resolves, while placing it at `/r/data/bar.c` makes it
resolve (second and third conjuncts); and a filesystem differing only
outside the consulted paths resolves identically (last conjunct, via the
theorem). -/
theorem search_paths_root_relative_witness :
    (merged_rule_set fsC10 "/r".data =
      some ⟨["sub/rules.mk".data], ["./".data, "data".data], ["foo.o".data, "bar.o".data]⟩) ∧
    (get_source_files fsC10 "/fw".data "/r".data = some []) ∧
    (get_source_files fsC10b "/fw".data "/r".data = some ["/r/data/bar.c".data]) ∧
    resolveObj fsC10 "/fw".data "/r".data ["./".data, "data".data] "bar.c".data =
      resolveObj fsC10c "/fw".data "/r".data ["./".data, "data".data] "bar.c".data :=
  ⟨by decide, by decide, by decide,
   search_paths_root_relative fsC10 fsC10c "/fw".data "/r".data "bar.c".data
     ["./".data, "data".data] (by decide)⟩

/-! ## The board-to-source-tree dispatch -/

/-- C8: the `tivac` core scans the flat `lm4f` subdirectory of the
framework's `lib` directory; the `stm32` core scans `lib/stm32/<s>` where
`<s>` is the two-character substring of the mcu identifier at positions 5
and 6; any other core scans `lib` itself. -/
theorem root_dir_dispatch (fw core mcu : Str) (h7 : 7 ≤ mcu.length) :
    root_dir fw "tivac".data mcu = pjoin (pjoin fw "lib".data) "lm4f".data ∧
    (core = "stm32".data →
      root_dir fw core mcu =
        pjoin (pjoin (pjoin fw "lib".data) "stm32".data) [mcu.getD 5 ' ', mcu.getD 6 ' ']) ∧
    (core ≠ "tivac".data → core ≠ "stm32".data → root_dir fw core mcu = pjoin fw "lib".data) := by
  refine ⟨?_, ?_, ?_⟩
  · unfold root_dir
    rw [if_pos rfl]
  · intro hc
    subst hc
    unfold root_dir
    rw [if_neg (by decide), if_pos rfl]
    have h5 : 5 < mcu.length := by omega
    have h6 : 6 < mcu.length := by omega
    have hdrop : (mcu.drop 5).take 2 = [mcu.getD 5 ' ', mcu.getD 6 ' '] := by
      rw [List.drop_eq_getElem_cons h5, List.drop_eq_getElem_cons h6]
      rw [List.take_succ_cons, List.take_succ_cons, List.take_zero]
      rw [List.getD_eq_getElem _ _ h5, List.getD_eq_getElem _ _ h6]
    rw [hdrop]
  · intro h1 h2
    unfold root_dir
    rw [if_neg h1, if_neg h2]

/-- C8 witness: for an stm32 board with mcu `stm32f103c8` the scanned root
is `lib/stm32/f1` (extra first conjunct, computed outright). -/
theorem root_dir_dispatch_witness :
    (root_dir "/fw".data "stm32".data "stm32f103c8".data = "/fw/lib/stm32/f1".data) ∧
    (root_dir "/fw".data "tivac".data "stm32f103c8".data =
        pjoin (pjoin "/fw".data "lib".data) "lm4f".data ∧
     ("stm32".data = "stm32".data →
       root_dir "/fw".data "stm32".data "stm32f103c8".data =
         pjoin (pjoin (pjoin "/fw".data "lib".data) "stm32".data)
           ["stm32f103c8".data.getD 5 ' ', "stm32f103c8".data.getD 6 ' ']) ∧
     ("stm32".data ≠ "tivac".data → "stm32".data ≠ "stm32".data →
       root_dir "/fw".data "stm32".data "stm32f103c8".data =
         pjoin "/fw".data "lib".data)) :=
  ⟨by decide, root_dir_dispatch "/fw".data "stm32".data "stm32f103c8".data (by decide)⟩


/-! ## Duplicates in the merged rule set -/

/-- C5 counterexample: in `fsC5` the root Makefile declares `VPATH += a:a`
and `OBJS = foo.o foo.o`, and the included `i.mk` declares `VPATH += a`;
the merged searchPaths `["./", "a", "a"]` and objectNames
`["foo.o", "foo.o", "bar.o"]` both contain duplicates, and the merged
searchPaths length (3) falls short of 1 plus the number of paths listed
across all VPATH lines (1 + 3 = 4). -/
theorem merged_fields_duplicate_free_counterexample :
    merged_rule_set fsC5 "/r".data =
      some ⟨["i.mk".data], ["./".data, "a".data, "a".data],
            ["foo.o".data, "foo.o".data, "bar.o".data]⟩ ∧
    ¬ (["./".data, "a".data, "a".data] : List Str).Nodup ∧
    ¬ (["foo.o".data, "foo.o".data, "bar.o".data] : List Str).Nodup ∧
    (["./".data, "a".data, "a".data] : List Str).length < 1 + 3 := by decide

/-- C5 amended: merging from included files appends a value only if not
already present, so the merged includes list has length at most the number
of include lines across the filesystem's rule files (the length of
`includesUniverse`, one entry per include line), and the merged lists are
duplicate-free whenever the root Makefile's own parsed lists are;
duplicates inside the root file itself, however, are preserved. -/
theorem merged_fields_dedup_amended (fs : FS) (sd : Str) (root M : MkData)
    (hroot : parseFile fs (pjoin sd "Makefile".data) = some root)
    (hM : merged_rule_set fs sd = some M) :
    (root.includes.Nodup → M.includes.Nodup) ∧
    (root.vpath.Nodup → M.vpath.Nodup) ∧
    (root.objs.Nodup → M.objs.Nodup) ∧
    M.includes.length ≤ (includesUniverse fs).length := by
  have hloop : resolveLoop fs sd (fuelFor fs root) root 0 = some M := by
    unfold merged_rule_set at hM
    rw [hroot] at hM
    exact hM
  obtain ⟨t1, t2, t3, H1, H1n, H1p, H4, H4n, H4p, H7, H7n, H7p⟩ :=
    resolveLoop_appends fs sd _ _ _ _ hloop
  refine ⟨?_, ?_, ?_, ?_⟩
  · intro hn
    rw [H1]
    exact List.Nodup.append hn H1n (fun a ha hat => (H1p a hat).2 ha)
  · intro hn
    rw [H4]
    exact List.Nodup.append hn H4n (fun a ha hat => H4p a hat ha)
  · intro hn
    rw [H7]
    exact List.Nodup.append hn H7n (fun a ha hat => H7p a hat ha)
  · obtain ⟨pre, post, hU⟩ := includes_segment hroot
    have ht1sub : ∀ a ∈ t1, a ∈ pre ++ post := by
      intro a ha
      have haU := (H1p a ha).1
      rw [hU] at haU
      rcases List.mem_append.mp haU with h2 | h2
      · rcases List.mem_append.mp h2 with h3 | h3
        · exact List.mem_append.mpr (Or.inl h3)
        · exact absurd h3 (H1p a ha).2
      · exact List.mem_append.mpr (Or.inr h2)
    have hsub : t1.length ≤ (pre ++ post).length :=
      (List.subperm_of_subset H1n ht1sub).length_le
    rw [H1, List.length_append, hU]
    simp only [List.length_append] at hsub ⊢
    omega

/-- C5 amended witness: the duplicate-free tree `fsC5w` merges to
duplicate-free lists within the includes bound. -/
theorem merged_fields_dedup_amended_witness :
    ((["i.mk".data] : List Str).Nodup ∧ (["./".data, "a".data, "b".data] : List Str).Nodup ∧
     (["foo.o".data, "bar.o".data] : List Str).Nodup) ∧
    (((⟨["i.mk".data], ["./".data, "a".data], ["foo.o".data]⟩ : MkData).includes.Nodup →
        (⟨["i.mk".data], ["./".data, "a".data, "b".data],
          ["foo.o".data, "bar.o".data]⟩ : MkData).includes.Nodup) ∧
     ((⟨["i.mk".data], ["./".data, "a".data], ["foo.o".data]⟩ : MkData).vpath.Nodup →
        (⟨["i.mk".data], ["./".data, "a".data, "b".data],
          ["foo.o".data, "bar.o".data]⟩ : MkData).vpath.Nodup) ∧
     ((⟨["i.mk".data], ["./".data, "a".data], ["foo.o".data]⟩ : MkData).objs.Nodup →
        (⟨["i.mk".data], ["./".data, "a".data, "b".data],
          ["foo.o".data, "bar.o".data]⟩ : MkData).objs.Nodup) ∧
     (⟨["i.mk".data], ["./".data, "a".data, "b".data],
       ["foo.o".data, "bar.o".data]⟩ : MkData).includes.length ≤
       (includesUniverse fsC5w).length) :=
  ⟨by decide,
   merged_fields_dedup_amended fsC5w "/r".data
     ⟨["i.mk".data], ["./".data, "a".data], ["foo.o".data]⟩
     ⟨["i.mk".data], ["./".data, "a".data, "b".data], ["foo.o".data, "bar.o".data]⟩
     (by decide) (by decide)⟩

/-! ## The whitespace requirement of the VPATH pattern -/

/-- Stripping a literal succeeds exactly on the literal's extensions. -/
theorem dropLit_append : ∀ (p l : Str), dropLit p (p ++ l) = some l := by
  intro p
  induction p with
  | nil => intro l; rfl
  | cons c cs ih =>
    intro l
    show (if c = c then dropLit cs (cs ++ l) else none) = some l
    rw [if_pos rfl]
    exact ih l

/-- Computing `takeWhile` over an all-satisfying prefix followed by a failing head. -/
theorem takeWhile_append_ws {p : Char → Bool} : ∀ (xs ys : Str),
    (∀ c ∈ xs, p c = true) → (∀ c, ys.head? = some c → p c = false) →
    (xs ++ ys).takeWhile p = xs := by
  intro xs
  induction xs with
  | nil =>
    intro ys _ hy
    cases ys with
    | nil => rfl
    | cons c ys2 =>
      show (c :: ys2).takeWhile p = []
      rw [List.takeWhile_cons, hy c rfl]
      simp
  | cons x xs2 ih =>
    intro ys hx hy
    show ((x :: (xs2 ++ ys)).takeWhile p) = x :: xs2
    rw [List.takeWhile_cons, hx x (List.mem_cons_self _ _),
      ih ys (fun c hc => hx c (List.mem_cons_of_mem _ hc)) hy]
    simp

/-- Computing `takeWhile` over an all-satisfying list. -/
theorem takeWhile_all {p : Char → Bool} : ∀ l : Str, (∀ c ∈ l, p c = true) →
    l.takeWhile p = l := by
  intro l
  induction l with
  | nil => intro _; rfl
  | cons c cs ih =>
    intro h
    rw [List.takeWhile_cons, h c (List.mem_cons_self _ _),
      ih (fun d hd => h d (List.mem_cons_of_mem _ hd))]
    simp

/-- The capture of `\s+([^\r\n]+)` on a whitespace run followed by CR-free
text headed by a non-whitespace character is exactly that text. -/
theorem matchWsCapture_exact {w cap : Str}
    (hw : ∀ c ∈ w, isSpaceChar c = true) (hwn : w ≠ [])
    (hcaphead : ∀ c, cap.head? = some c → isSpaceChar c = false) (hcapn : cap ≠ [])
    (hcr : ∀ c ∈ cap, c ≠ '\r') :
    matchWsCapture (w ++ cap) = some cap := by
  have hm : (w ++ cap).takeWhile isSpaceChar = w := takeWhile_append_ws w cap hw hcaphead
  have hwpos : 0 < w.length := List.length_pos.mpr hwn
  have hcappos : 0 < cap.length := List.length_pos.mpr hcapn
  simp only [matchWsCapture, hm]
  rw [if_pos (by rw [List.length_append]; omega), if_pos (by omega), List.drop_left]
  rw [takeWhile_all cap (fun c hc => decide_eq_true (hcr c hc))]

/-- C7 corrected: the search-path pattern requires at least one whitespace
character between `VPATH` and the operator and at least one after it.  A
line of the form `VPATH<ws>(+)=<ws><paths>` is recognized with the paths as
capture; a line whose character right after `VPATH` is not whitespace (such
as `VPATH=a:b`) is not recognized at all; and the parser appends the
`:`-split of every recognized line's capture to searchPaths in line order,
after the seeded `./`. -/
theorem vpath_requires_whitespace (w1 op w2 cap : Str)
    (hw1 : ∀ c ∈ w1, isSpaceChar c = true) (hw1n : w1 ≠ [])
    (hop : op = ['='] ∨ op = ['+', '='])
    (hw2 : ∀ c ∈ w2, isSpaceChar c = true) (hw2n : w2 ≠ [])
    (hcap : ∀ c, cap.head? = some c → isSpaceChar c = false) (hcapn : cap ≠ [])
    (hcr : ∀ c ∈ cap, c ≠ '\r') :
    matchVpath ("VPATH".data ++ w1 ++ op ++ w2 ++ cap) = some cap ∧
    (∀ r c, r.head? = some c → isSpaceChar c = false →
      matchVpath ("VPATH".data ++ r) = none) ∧
    (∀ content M, parse_makefile_data content = some M →
      M.vpath = "./".data :: ((splitOnChar '\n' content).filterMap matchVpath).foldl
        (fun acc c => acc ++ splitOnChar ':' c) []) := by
  refine ⟨?_, ?_, ?_⟩
  · have hshape : "VPATH".data ++ w1 ++ op ++ w2 ++ cap =
        "VPATH".data ++ (w1 ++ (op ++ (w2 ++ cap))) := by
      simp [List.append_assoc]
    rw [hshape]
    have hophead : ∀ c, (op ++ (w2 ++ cap)).head? = some c → isSpaceChar c = false := by
      intro c hc
      rcases hop with h | h <;> subst h <;> simp at hc <;> rw [← hc] <;> decide
    have htw : (w1 ++ (op ++ (w2 ++ cap))).takeWhile isSpaceChar = w1 :=
      takeWhile_append_ws _ _ hw1 hophead
    simp only [matchVpath, dropLit_append, htw]
    rw [if_neg (by simpa using hw1n), List.drop_left]
    rcases hop with h | h <;> subst h
    · show matchWsCapture (w2 ++ cap) = some cap
      exact matchWsCapture_exact hw2 hw2n hcap hcapn hcr
    · show matchWsCapture (w2 ++ cap) = some cap
      exact matchWsCapture_exact hw2 hw2n hcap hcapn hcr
  · intro r c hc hns
    cases r with
    | nil => exact absurd hc (by simp)
    | cons d r2 =>
      have hd : d = c := by simpa using hc
      subst hd
      simp only [matchVpath, dropLit_append]
      rw [List.takeWhile_cons, hns]
      simp
  · intro content M h
    have hdef : parse_makefile_data content = (match findObjs content with
      | none => none
      | some g => some ⟨(splitOnChar '\n' content).filterMap matchInclude,
          "./".data :: ((splitOnChar '\n' content).filterMap matchVpath).foldl
            (fun acc cap => acc ++ splitOnChar ':' cap) [],
          objsSplit g⟩) := rfl
    rw [hdef] at h
    cases hfo : findObjs content with
    | none => rw [hfo] at h; exact absurd h (by simp)
    | some g =>
      rw [hfo] at h
      injection h with h2
      rw [← h2]

/-- C7 witness: `VPATH += a:b` (single blanks around the operator) is
recognized with capture `a:b`. -/
theorem vpath_requires_whitespace_witness :
    (matchVpath "VPATH += a:b".data = some "a:b".data) ∧
    (matchVpath ("VPATH".data ++ [' '] ++ ['+', '='] ++ [' '] ++ "a:b".data) =
        some "a:b".data ∧
      (∀ r c, r.head? = some c → isSpaceChar c = false →
        matchVpath ("VPATH".data ++ r) = none) ∧
      (∀ content M, parse_makefile_data content = some M →
        M.vpath = "./".data :: ((splitOnChar '\n' content).filterMap matchVpath).foldl
          (fun acc c => acc ++ splitOnChar ':' c) [])) :=
  ⟨by decide,
   vpath_requires_whitespace [' '] ['+', '='] [' '] "a:b".data
     (by decide) (by decide) (Or.inr rfl) (by decide) (by decide)
     (by decide) (by decide) (by decide)⟩

/-- C7 counterexample: `VPATH=a:b`, with no whitespace between `VPATH` and
the operator, is not recognized: searchPaths stays at the seeded `./` and
neither `a` nor `b` is appended. -/
theorem vpath_no_whitespace_not_recognized :
    parse_makefile_data "VPATH=a:b\nOBJS = x.o\n".data =
      some ⟨[], ["./".data], ["x.o".data]⟩ ∧
    "a".data ∉ (["./".data] : List Str) ∧ "b".data ∉ (["./".data] : List Str) := by decide

end LibOpenCM3
